import Mathlib

/-!
# Verification of the CA-75 street-connectivity metrics core

This file gives a shallow embedding of the network-metrics aggregation
pipeline of the repository (chiefly `Final Project/code/computemetrics.py`,
with the key handling of `checkinputs.py` and `aggregatetobg.py` and the
component reduction shared with `buildnetwork.py`) and proves, or refutes,
the frozen specification claims about it.

Modelling conventions:
* pandas float columns are modelled by `PFloat`: an exact rational together
  with the IEEE-754 special values NaN and ±infinity, with pandas/numpy
  elementwise division semantics (`x/0 = ±inf` for `x ≠ 0`, `0/0 = NaN`,
  NaN-propagation, no exception);
* the spatial join (`gpd.sjoin(..., predicate="within")`) is modelled by an
  abstract assignment of each node row to at most one block-group key, and
  `gpd.overlay(..., how="intersection")` by its output rows
  (block-group key, intersected length);
* the street graph is a directed multigraph as lists of nodes and weighted
  arcs; the library calls (`single_source_dijkstra_path_length`,
  `betweenness_centrality`) are embedded by their defining mathematics:
  shortest-path distance as the minimum weight over simple paths (which for
  the nonnegative street lengths equals the Dijkstra result) and Brandes
  pair dependencies with the `normalized=True` rescaling.
-/

/-- A pandas float cell: an exact rational or one of the IEEE-754 special
values produced by elementwise arithmetic (`NaN`, `+inf`, `-inf`). -/
inductive PFloat where
  | num (q : ℚ)
  | nan
  | inf
  | ninf
deriving DecidableEq, Repr

/-- Elementwise pandas/numpy division on float cells: NaN propagates, a
nonzero numerator over zero gives a signed infinity, `0/0` gives NaN, and a
finite numerator over an infinity gives 0.  No case raises. -/
def PFloat.div : PFloat → PFloat → PFloat
  | .nan, _ => .nan
  | _, .nan => .nan
  | .num a, .num b =>
      if b ≠ 0 then .num (a / b)
      else if 0 < a then .inf
      else if a < 0 then .ninf
      else .nan
  | .num _, .inf => .num 0
  | .num _, .ninf => .num 0
  | .inf, .num b => if 0 ≤ b then .inf else .ninf
  | .ninf, .num b => if 0 ≤ b then .ninf else .inf
  | .inf, .inf => .nan
  | .inf, .ninf => .nan
  | .ninf, .inf => .nan
  | .ninf, .ninf => .nan

/-- A row of the block-group polygon layer as used by `computemetrics.py`
after projection: the join key `GEOID_BG` and
`area_km2 = bg_m.geometry.area / 1_000_000` (a finite number for every
polygon row). -/
structure BGRow where
  key : String
  area_km2 : ℚ
deriving DecidableEq, Repr

/-- A row of `nodes_in_bg = gpd.sjoin(nodes_m, bg_m, predicate="within",
how="left")`: the containing block-group key (`none` when the node lies in
no polygon, in which case groupby drops it), the node's betweenness, and its
ASPL (`none` models the NaN of an isolated node). -/
structure NodeRow where
  bg : Option String
  betweenness : ℚ
  aspl : Option ℚ
deriving DecidableEq, Repr

/-- A row of `inter = gpd.overlay(edges_m, bg_m, how="intersection")` with
its computed `len_km`: one row per (edge, block group) pair whose geometric
intersection is nonempty. -/
structure InterRow where
  bg : String
  len_km : ℚ
deriving DecidableEq, Repr

/-- The group of node rows aggregated under key `k` by
`nodes_in_bg.groupby("GEOID_BG")`: rows whose (non-NaN) key equals `k`. -/
def nodesGroup (ns : List NodeRow) (k : String) : List NodeRow :=
  ns.filter (fun r => r.bg = some k)

/-- The group of intersection rows aggregated under key `k` by
`inter.groupby("GEOID_BG")`. -/
def interGroup (es : List InterRow) (k : String) : List InterRow :=
  es.filter (fun r => r.bg = k)

/-- pandas `Series.mean` on a list of non-null values. -/
def listMean (xs : List ℚ) : ℚ := xs.sum / xs.length

/-- pandas `Series.quantile(0.9)` (linear interpolation on the sorted
non-null values), used for `betweenness_p90`. -/
def quantile90 (xs : List ℚ) : ℚ :=
  let sorted := xs.insertionSort (· ≤ ·)
  let m := xs.length - 1
  let h : ℚ := (9 / 10) * m
  let i := ⌊h⌋₊
  let lo := sorted.getD i 0
  let hi := sorted.getD (i + 1) lo
  lo + (h - i) * (hi - lo)

/-- One output row of `bg_metrics.csv`, fields in the written column order
(`keep` list of `computemetrics.py`). -/
structure MetricsRow where
  GEOID_BG : String
  area_km2 : PFloat
  nodes_in_bg : PFloat
  edges_km : PFloat
  node_density : PFloat
  edge_km_density : PFloat
  betweenness_mean : PFloat
  betweenness_p90 : PFloat
  aspl_mean : PFloat
deriving DecidableEq, Repr

/-- The output row for one block-group polygon: the two `groupby` tables have
one row per distinct key, so the two left merges on the unique key
`GEOID_BG` act as keyed lookups — a key with an empty group is absent from
the aggregate table and its merged columns are NaN.  `nodes_in_bg` is the
group size (the `("geometry","count")` of non-null points), the betweenness
mean and 0.9-quantile are over the group's (always non-null) betweenness
values, `aspl_mean` is the NaN-skipping mean, `edges_km` sums `len_km`, and
the densities are the elementwise column divisions by `area_km2`. -/
def metricsRow (ns : List NodeRow) (es : List InterRow) (b : BGRow) : MetricsRow :=
  let g := nodesGroup ns b.key
  let eg := interGroup es b.key
  let area : PFloat := .num b.area_km2
  let cnt : PFloat := if g.isEmpty then .nan else .num g.length
  let bmean : PFloat := if g.isEmpty then .nan else .num (listMean (g.map (·.betweenness)))
  let bp90 : PFloat := if g.isEmpty then .nan else .num (quantile90 (g.map (·.betweenness)))
  let avals := g.filterMap (·.aspl)
  let amean : PFloat := if avals.isEmpty then .nan else .num (listMean avals)
  let ekm : PFloat := if eg.isEmpty then .nan else .num ((eg.map (·.len_km)).sum)
  { GEOID_BG := b.key
    area_km2 := area
    nodes_in_bg := cnt
    edges_km := ekm
    node_density := cnt.div area
    edge_km_density := ekm.div area
    betweenness_mean := bmean
    betweenness_p90 := bp90
    aspl_mean := amean }

/-- The aggregated output table `metrics[keep]`: the left merges keep every
block-group row of the (projected) polygon layer, in the layer's order. -/
def computeMetrics (bgs : List BGRow) (ns : List NodeRow) (es : List InterRow) :
    List MetricsRow :=
  bgs.map (metricsRow ns es)

/-- The street graph as loaded from GraphML: a directed multigraph given by
its node list (in insertion order) and its arcs `(u, v, length)`. -/
structure Graph where
  nodes : List ℕ
  edges : List (ℕ × ℕ × ℚ)
deriving DecidableEq, Repr

/-- Every arc endpoint is a node of the graph — an invariant networkx
maintains for every graph it hands out. -/
def EdgesValid (G : Graph) : Prop :=
  ∀ e ∈ G.edges, e.1 ∈ G.nodes ∧ e.2.1 ∈ G.nodes

instance (G : Graph) : Decidable (EdgesValid G) :=
  inferInstanceAs (Decidable (∀ e ∈ G.edges, _ ∧ _))

/-- The `length` data of the parallel arcs from `a` to `b`. -/
def arcWeights (G : Graph) (a b : ℕ) : List ℚ :=
  (G.edges.filter (fun e => e.1 = a ∧ e.2.1 = b)).map (fun e => e.2.2)

/-- Minimum of a list of rationals, `none` on the empty list. -/
def listMinQ : List ℚ → Option ℚ :=
  List.foldr (fun a m => some (match m with | none => a | some c => min a c)) none

/-- The weight a Dijkstra traversal of the multigraph uses for the hop
`a → b`: the minimum `length` over the parallel arcs (`none` when there is
no arc). -/
def arcW (G : Graph) (a b : ℕ) : Option ℚ :=
  listMinQ (arcWeights G a b)

/-- Total weight of a path (list of consecutively adjacent nodes); `none`
when some hop has no arc. -/
def pathWeight (G : Graph) : List ℕ → Option ℚ
  | [] => some 0
  | [_] => some 0
  | a :: b :: rest => do
      let w ← arcW G a b
      let r ← pathWeight G (b :: rest)
      pure (w + r)

/-- All simple (node-repetition-free) directed paths from `cur` to `target`
whose intermediate nodes are drawn from `avail`; `fuel` bounds the length. -/
def simplePathsAux (G : Graph) (fuel : ℕ) (avail : List ℕ) (cur target : ℕ) :
    List (List ℕ) :=
  match fuel with
  | 0 => []
  | fuel + 1 =>
    if cur = target then [[cur]]
    else
      (avail.filter (fun w => (arcW G cur w).isSome)).flatMap
        (fun w => (simplePathsAux G fuel (avail.erase w) w target).map (cur :: ·))

/-- All simple directed paths from `u` to `v` through the graph's nodes. -/
def simplePaths (G : Graph) (u v : ℕ) : List (List ℕ) :=
  if u ∈ G.nodes ∧ v ∈ G.nodes then
    simplePathsAux G G.nodes.length (G.nodes.erase u) u v
  else []

/-- The shortest-path distance `nx.single_source_dijkstra_path_length` finds
from `u` to `v` weighting by `length`: with the street network's nonnegative
weights this is the minimum path weight over simple paths, `none` (absence
from the returned dict) when `v` is unreachable. -/
def spDist (G : Graph) (u v : ℕ) : Option ℚ :=
  listMinQ ((simplePaths G u v).filterMap (pathWeight G))

/-- The entries of the dict returned by Dijkstra from `u`: each reachable
node paired with its distance (the source itself appears at distance 0). -/
def dijkstraLengths (G : Graph) (u : ℕ) : List (ℕ × ℚ) :=
  G.nodes.filterMap (fun v => (spDist G u v).map (fun d => (v, d)))

/-- `all_pairs_mean_shortest_path_length` of `computemetrics.py`, at one
source node: when the Dijkstra dict has more than one entry, the sum of the
distances excluding the self distance divided by the number of other
reachable nodes; otherwise `math.nan`, modelled as `none`. -/
def all_pairs_mean_entry (G : Graph) (u : ℕ) : Option ℚ :=
  let lengths := dijkstraLengths G u
  if 1 < lengths.length then
    some (((lengths.filter (fun p => p.1 ≠ u)).map Prod.snd).sum / (lengths.length - 1))
  else none

/-- The length-shortest paths from `s` to `t` (Brandes's `σ_st` counts
these). -/
def shortestPaths (G : Graph) (s t : ℕ) : List (List ℕ) :=
  (simplePaths G s t).filter (fun p => pathWeight G p = spDist G s t)

/-- `σ_st`: the number of shortest `s → t` paths. -/
def sigma (G : Graph) (s t : ℕ) : ℕ := (shortestPaths G s t).length

/-- `σ_st(v)`: the number of shortest `s → t` paths with `v` as an interior
node. -/
def sigmaVia (G : Graph) (s t v : ℕ) : ℕ :=
  ((shortestPaths G s t).filter (fun p => v ∈ p ∧ v ≠ s ∧ v ≠ t)).length

/-- The pair dependency `σ_st(v) / σ_st` (0 when `t` is unreachable from
`s`, since `0 / 0 = 0` in `ℚ` — networkx simply skips such targets). -/
def pairDep (G : Graph) (s t v : ℕ) : ℚ :=
  (sigmaVia G s t v : ℚ) / (sigma G s t : ℚ)

/-- The dependency of a source `s` on `v`: accumulated over all targets, as
in Brandes's accumulation phase (self and unreachable targets contribute
0). -/
def depFrom (G : Graph) (s v : ℕ) : ℚ :=
  (G.nodes.map (fun t => pairDep G s t v)).sum

/-- Unnormalized betweenness: the dependency summed over all sources. -/
def rawBtw (G : Graph) (v : ℕ) : ℚ :=
  (G.nodes.map (fun s => depFrom G s v)).sum

/-- `nx.betweenness_centrality(G, weight="length", normalized=True)` at one
node: the `_rescale` step divides by `(n-1)(n-2)` when `n > 2` and leaves
the raw value (which is then 0) otherwise. -/
def betweenness (G : Graph) (v : ℕ) : ℚ :=
  if 2 < G.nodes.length then
    rawBtw G v / (((G.nodes.length - 1) * (G.nodes.length - 2) : ℕ) : ℚ)
  else rawBtw G v

/-- Undirected adjacency: an arc in either direction, as produced by
`G.to_undirected()`. -/
def adjUB (G : Graph) (a b : ℕ) : Bool :=
  G.edges.any (fun e => (e.1 = a ∧ e.2.1 = b) ∨ (e.1 = b ∧ e.2.1 = a))

/-- Undirected reachability (the reflexive-transitive closure of undirected
adjacency). -/
def ReachU (G : Graph) : ℕ → ℕ → Prop :=
  Relation.ReflTransGen (fun a b => adjUB G a b = true)

/-- One breadth step of the undirected traversal: keep the visited list and
add every graph node adjacent to a visited one. -/
def stepU (G : Graph) (S : List ℕ) : List ℕ :=
  S ++ G.nodes.filter (fun w => S.any (fun u => adjUB G u w))

/-- The nodes an undirected traversal reaches from `a`: `|nodes|` breadth
steps saturate the reachable set. -/
def reachList (G : Graph) (a : ℕ) : List ℕ :=
  (stepU G)^[G.nodes.length] [a]

/-- The connected component of `r`, as the set `nx.connected_components`
yields it, listed in the graph's node order. -/
def component_of (G : Graph) (r : ℕ) : List ℕ :=
  G.nodes.filter (fun b => b ∈ reachList G r)

/-- `nx.is_connected(G.to_undirected())`: every node is reachable from the
first one.  (networkx raises on a node-free graph; the pipeline's claims all
assume at least one node.) -/
def is_connectedB (G : Graph) : Bool :=
  match G.nodes with
  | [] => true
  | a :: _ => G.nodes.all (fun b => b ∈ reachList G a)

/-- `nx.connected_components`: scan the nodes in order and emit the
component of each not yet seen node. -/
def componentsAux (G : Graph) : List ℕ → List ℕ → List (List ℕ)
  | [], _ => []
  | v :: rest, seen =>
    if v ∈ seen then componentsAux G rest seen
    else component_of G v :: componentsAux G rest (seen ++ component_of G v)

/-- The list of undirected connected components, in first-node order. -/
def componentsList (G : Graph) : List (List ℕ) :=
  componentsAux G G.nodes []

/-- Python's `max(..., key=len)`: the first list of maximal length. -/
def maxByLen : List (List ℕ) → List ℕ
  | [] => []
  | c :: rest => rest.foldl (fun best x => if best.length < x.length then x else best) c

/-- `G.subgraph(S).copy()`: the subgraph induced on the node set `S`,
retaining the original node order. -/
def subgraphOn (G : Graph) (S : List ℕ) : Graph :=
  { nodes := G.nodes.filter (fun v => v ∈ S)
    edges := G.edges.filter (fun e => e.1 ∈ S ∧ e.2.1 ∈ S) }

/-- `largest_component` of `computemetrics.py`: return the graph unchanged
when its undirected view is connected, else the subgraph induced on a
largest undirected connected component. -/
def largest_component (G : Graph) : Graph :=
  if is_connectedB G then G else subgraphOn G (maxByLen (componentsList G))

/-- `largest_connected_component` of `buildnetwork.py` is the same
procedure, line for line. -/
def largest_connected_component (G : Graph) : Graph :=
  largest_component G

/-- A maximal straight piece of one edge's geometry lying inside one
block-group polygon, in the edge's arc-length parameterization (metres along
the projected geometry): `gpd.overlay(..., how="intersection")` clips the
edge to the polygon, and the clipped geometry is a finite union of such
pieces. -/
structure Seg where
  lo : ℚ
  hi : ℚ
deriving DecidableEq, Repr

/-- The length `inter.geometry.length` of one clipped piece. -/
def segLen (s : Seg) : ℚ := s.hi - s.lo

/-- The intersected length of one edge with one block group: the summed
length of the clipped pieces. -/
def interLen (t : List Seg) : ℚ := (t.map segLen).sum

/-- The total length one edge contributes across all block groups: the
per-block-group intersected lengths summed over the block groups
(`edges_grp` groups and sums these rows). -/
def totalAttributed (traces : List (List Seg)) : ℚ :=
  (traces.map interLen).sum

/-- The pieces in `segs`, laid end to end, run exactly from `a` to `b`. -/
def chainFrom : ℚ → List Seg → ℚ → Prop
  | a, [], b => a = b
  | a, s :: rest, b => s.lo = a ∧ chainFrom s.hi rest b

/-- Python `s[-12:]`: the last `n` characters (the whole string when it is
shorter). -/
def lastN (n : ℕ) (s : List Char) : List Char :=
  s.drop (s.length - n)

/-- Python `s.zfill(n)`: left-pad with `'0'` to length `n`. -/
def zfill (n : ℕ) (s : List Char) : List Char :=
  List.replicate (n - s.length) '0' ++ s

/-- The `GEOID_BG` normalization every script applies:
`astype(str).str[-12:].str.zfill(12)`. -/
def normKey (s : List Char) : List Char :=
  zfill 12 (lastN 12 s)

/-- The key column `checkinputs.py` builds: normalize every key, then abort
on duplicates, then abort if any key is not 12 characters long. -/
def checkKeys (keys : List (List Char)) : Except String (List (List Char)) :=
  let ks := keys.map normKey
  if ¬ ks.Nodup then .error "GEOID_BG duplicates found"
  else if ks.any (fun k => k.length ≠ 12) then
    .error "Some GEOID_BG values are not 12 characters after normalization."
  else .ok ks

/-- The key `computemetrics.py` uses for a polygon row: the existing
`GEOID_BG` column value when the layer has one (taken as-is), else the
normalization of the `GEOID` column. -/
def computemetricsKey (existingBG : Option (List Char)) (geoid : List Char) :
    List Char :=
  match existingBG with
  | some k => k
  | none => normKey geoid

/-- The normalized key columns `aggregatetobg.py` merges on (both sides are
normalized unconditionally there). -/
def aggregateKeys (keys : List (List Char)) : List (List Char) :=
  keys.map normKey

/-! ## Density-normalizer and aggregation claims (C1, C4, C9) -/

theorem PFloat_nan_div (x : PFloat) : PFloat.div .nan x = .nan := by
  cases x <;> rfl

theorem PFloat_num_div_num_pos (a b : ℚ) (hb : b ≠ 0) :
    PFloat.div (.num a) (.num b) = .num (a / b) := by
  simp [PFloat.div, hb]

theorem PFloat_num_div_num_zero_pos (a : ℚ) (ha : 0 < a) :
    PFloat.div (.num a) (.num 0) = .inf := by
  simp [PFloat.div, ha, ha.not_lt]

theorem metricsRow_nodes_empty (ns : List NodeRow) (b : BGRow)
    (h : ∀ nr ∈ ns, nr.bg ≠ some b.key) :
    nodesGroup ns b.key = [] := by
  simp only [nodesGroup, List.filter_eq_nil_iff]
  intro nr hnr
  simpa using h nr hnr

theorem metricsRow_inter_empty (es : List InterRow) (b : BGRow)
    (h : ∀ er ∈ es, er.bg ≠ b.key) :
    interGroup es b.key = [] := by
  simp only [interGroup, List.filter_eq_nil_iff]
  intro er her
  simpa using h er her

/-- C1 (counterexample).  The claim asserts that whenever the area is zero
the density is "undefined (missing, not zero and not infinity)".  On a
block group whose projected polygon is degenerate (`area_km2 = 0`, as a
collinear-vertex polygon produces) but which is crossed by edge geometry of
positive length, the pandas column division `edges_km / area_km2` yields
`+inf`, not NaN: the output row here has `area_km2 = 0`, a defined
`edges_km = 1`, and `edge_km_density = +inf ≠ NaN`. -/
theorem C1_density_counterexample :
    (computeMetrics [⟨"170319801001", 0⟩] [] [⟨"170319801001", 1⟩]).map
        (fun r => (r.area_km2, r.edges_km, r.edge_km_density)) =
      [(PFloat.num 0, PFloat.num 1, PFloat.inf)] ∧
    PFloat.inf ≠ PFloat.nan ∧ PFloat.inf ≠ PFloat.num 0 := by
  refine ⟨?_, by decide, by decide⟩
  simp only [computeMetrics, metricsRow, interGroup, nodesGroup, List.map,
    List.filter, List.isEmpty, PFloat.div]
  norm_num

/-- C1 (amended).  For every output row: when the area is positive and the
node count (resp. summed edge length) is defined, the density is exactly
count/area (resp. length/area), and the defined node count is at least 1;
when the numerator is NaN (key absent from the aggregation) the density is
NaN; when the area is zero and the numerator is a defined positive number
the density is `+inf`.  The elementwise division is total — it never raises. -/
theorem C1_density_semantics (bgs : List BGRow) (ns : List NodeRow)
    (es : List InterRow) (r : MetricsRow) (hr : r ∈ computeMetrics bgs ns es) :
    (∀ c a : ℚ, r.nodes_in_bg = .num c → r.area_km2 = .num a → 0 < a →
        r.node_density = .num (c / a) ∧ 1 ≤ c) ∧
    (r.nodes_in_bg = .nan → r.node_density = .nan) ∧
    (∀ c : ℚ, r.nodes_in_bg = .num c → r.area_km2 = .num 0 →
        r.node_density = .inf) ∧
    (∀ s a : ℚ, r.edges_km = .num s → r.area_km2 = .num a → 0 < a →
        r.edge_km_density = .num (s / a)) ∧
    (r.edges_km = .nan → r.edge_km_density = .nan) ∧
    (∀ s : ℚ, r.edges_km = .num s → 0 < s → r.area_km2 = .num 0 →
        r.edge_km_density = .inf) := by
  simp only [computeMetrics, List.mem_map] at hr
  obtain ⟨b, -, rfl⟩ := hr
  simp only [metricsRow]
  constructor
  · intro c a hc ha hapos
    by_cases hg : (nodesGroup ns b.key).isEmpty
    · simp [hg] at hc
    · simp only [hg, if_false] at hc ⊢
      obtain rfl : ((nodesGroup ns b.key).length : ℚ) = c := by
        simpa using hc
      obtain rfl : b.area_km2 = a := by simpa using ha
      refine ⟨PFloat_num_div_num_pos _ _ hapos.ne', ?_⟩
      have : nodesGroup ns b.key ≠ [] := by simpa [List.isEmpty_iff] using hg
      have : 1 ≤ (nodesGroup ns b.key).length := List.length_pos.mpr this
      exact_mod_cast this
  refine ⟨?_, ?_, ?_, ?_, ?_⟩
  · intro h
    by_cases hg : (nodesGroup ns b.key).isEmpty
    · simp [hg, PFloat_nan_div]
    · simp [hg] at h
  · intro c hc h0
    by_cases hg : (nodesGroup ns b.key).isEmpty
    · simp [hg] at hc
    · simp only [hg, if_false] at hc ⊢
      obtain rfl : ((nodesGroup ns b.key).length : ℚ) = c := by simpa using hc
      obtain h0' : b.area_km2 = 0 := by simpa using h0
      rw [h0']
      apply PFloat_num_div_num_zero_pos
      have : nodesGroup ns b.key ≠ [] := by simpa [List.isEmpty_iff] using hg
      exact_mod_cast List.length_pos.mpr this
  · intro s a hs ha hapos
    by_cases he : (interGroup es b.key).isEmpty
    · simp [he] at hs
    · simp only [he, if_false] at hs ⊢
      obtain rfl : ((interGroup es b.key).map (·.len_km)).sum = s := by
        simpa using hs
      obtain rfl : b.area_km2 = a := by simpa using ha
      exact PFloat_num_div_num_pos _ _ hapos.ne'
  · intro h
    by_cases he : (interGroup es b.key).isEmpty
    · simp [he, PFloat_nan_div]
    · simp [he] at h
  · intro s hs hspos h0
    by_cases he : (interGroup es b.key).isEmpty
    · simp [he] at hs
    · simp only [he, if_false] at hs ⊢
      obtain rfl : ((interGroup es b.key).map (·.len_km)).sum = s := by
        simpa using hs
      obtain h0' : b.area_km2 = 0 := by simpa using h0
      rw [h0']
      exact PFloat_num_div_num_zero_pos _ hspos

/-- Witness for the amended C1: a block group of area 2 containing one node
gets node density 1/2. -/
theorem C1_density_semantics_witness :
    (metricsRow [⟨some "a", 0, none⟩] [] ⟨"a", 2⟩).node_density =
        .num (1 / 2) ∧ (1 : ℚ) ≤ 1 :=
  (C1_density_semantics [⟨"a", 2⟩] [⟨some "a", 0, none⟩] []
      (metricsRow [⟨some "a", 0, none⟩] [] ⟨"a", 2⟩)
      (by simp [computeMetrics])).1 1 2
    (by simp [metricsRow, nodesGroup]) rfl (by norm_num)

/-- C4: a block group to which the spatial join assigns no nodes gets NaN
(not zero) for the node count, mean betweenness, 90th-percentile
betweenness, mean ASPL and node density; one with no intersecting edge
geometry gets NaN summed edge length and edge density.  The output is a
plain per-row map over the polygon rows — a degenerate block group can
neither halt the run (every operation involved is total) nor change any
other row, and its row is still present in the output. -/
theorem C4_degenerate_block_groups (bgs : List BGRow) (ns : List NodeRow)
    (es : List InterRow) (b : BGRow) (hb : b ∈ bgs) :
    ((∀ nr ∈ ns, nr.bg ≠ some b.key) →
      (metricsRow ns es b).nodes_in_bg = .nan ∧
      (metricsRow ns es b).betweenness_mean = .nan ∧
      (metricsRow ns es b).betweenness_p90 = .nan ∧
      (metricsRow ns es b).aspl_mean = .nan ∧
      (metricsRow ns es b).node_density = .nan) ∧
    ((∀ er ∈ es, er.bg ≠ b.key) →
      (metricsRow ns es b).edges_km = .nan ∧
      (metricsRow ns es b).edge_km_density = .nan) ∧
    computeMetrics bgs ns es = bgs.map (metricsRow ns es) ∧
    metricsRow ns es b ∈ computeMetrics bgs ns es := by
  refine ⟨?_, ?_, rfl, List.mem_map_of_mem _ hb⟩
  · intro h
    have hg := metricsRow_nodes_empty ns b h
    simp [metricsRow, hg, PFloat_nan_div]
  · intro h
    have he := metricsRow_inter_empty es b h
    simp [metricsRow, he, PFloat_nan_div]

/-- Witness for C4: a polygon row with no nodes and no intersecting edges
keeps its output row with the NaN fields. -/
theorem C4_degenerate_block_groups_witness :
    ((∀ nr ∈ ([] : List NodeRow), nr.bg ≠ some (BGRow.mk "a" 3).key) →
      (metricsRow [] [] ⟨"a", 3⟩).nodes_in_bg = .nan ∧
      (metricsRow [] [] ⟨"a", 3⟩).betweenness_mean = .nan ∧
      (metricsRow [] [] ⟨"a", 3⟩).betweenness_p90 = .nan ∧
      (metricsRow [] [] ⟨"a", 3⟩).aspl_mean = .nan ∧
      (metricsRow [] [] ⟨"a", 3⟩).node_density = .nan) ∧
    ((∀ er ∈ ([] : List InterRow), er.bg ≠ (BGRow.mk "a" 3).key) →
      (metricsRow [] [] ⟨"a", 3⟩).edges_km = .nan ∧
      (metricsRow [] [] ⟨"a", 3⟩).edge_km_density = .nan) ∧
    computeMetrics [⟨"a", 3⟩] [] [] = [⟨"a", 3⟩].map (metricsRow [] []) ∧
    metricsRow [] [] ⟨"a", 3⟩ ∈ computeMetrics [⟨"a", 3⟩] [] [] :=
  C4_degenerate_block_groups [⟨"a", 3⟩] [] [] ⟨"a", 3⟩ (by decide)

/-- C9: the output table has exactly one row per block-group polygon of the
input layer, in the layer's order, keyed by that polygon's `GEOID_BG`, and
the `area_km2` column of every row is the polygon's (defined) area — block
groups with no nodes or edges are kept, never dropped. -/
theorem C9_one_row_per_block_group (bgs : List BGRow) (ns : List NodeRow)
    (es : List InterRow) :
    (computeMetrics bgs ns es).map (fun r => (r.GEOID_BG, r.area_km2)) =
      bgs.map (fun b => (b.key, PFloat.num b.area_km2)) := by
  simp [computeMetrics, metricsRow]

/-! ## Edge-length sum conservation (C5) -/

/-- C5 (counterexample).  Sum conservation fails when part of an edge lies
outside every block-group polygon (the network is built from a smoothed,
buffered boundary, so edges do protrude past the block-group union): for an
edge of length 10 of which only the piece from 0 to 4 falls inside a block
group, the per-block-group intersected lengths sum to 4, not 10 — a
discrepancy of 6, far beyond floating-point tolerance. -/
theorem C5_sum_conservation_counterexample :
    totalAttributed [[⟨0, 4⟩]] = 4 ∧ (4 : ℚ) ≠ 10 := by
  constructor
  · simp only [totalAttributed, interLen, segLen, List.map, List.sum_cons,
      List.sum_nil]
    norm_num
  · norm_num

/-- C5 (amended).  When the clipped pieces of an edge across all block
groups tile the edge exactly — some arrangement of them runs end to end
from 0 to the edge's total length, with no gap and no overlap — the
per-block-group intersected lengths sum to exactly the edge's total length
(exact in the rational model, i.e. within floating-point tolerance in the
implementation); an edge that protrudes past the block-group union
contributes only the covered portion.  Non-overlapping census polygons
whose union covers the edge satisfy the tiling hypothesis. -/
theorem totalAttributed_eq_flatten (traces : List (List Seg)) :
    totalAttributed traces = (traces.flatten.map segLen).sum := by
  induction traces with
  | nil => rfl
  | cons t ts ih =>
      simp only [totalAttributed, List.map, List.sum_cons, List.flatten,
        List.map_append, List.sum_append] at ih ⊢
      simp [interLen, ih]

theorem C5_sum_conservation (traces : List (List Seg)) (L : ℚ)
    (arranged : List Seg) (hperm : traces.flatten.Perm arranged)
    (hchain : chainFrom 0 arranged L) :
    totalAttributed traces = L := by
  have hflat := totalAttributed_eq_flatten traces
  have hperm' : (traces.flatten.map segLen).sum = (arranged.map segLen).sum :=
    (hperm.map segLen).sum_eq
  have htel : ∀ (a b : ℚ) (l : List Seg), chainFrom a l b →
      (l.map segLen).sum = b - a := by
    intro a b l
    induction l generalizing a with
    | nil => intro h; simp [chainFrom] at h; simp [h]
    | cons s rest ih =>
        intro h
        obtain ⟨hlo, hrest⟩ := h
        simp only [List.map, List.sum_cons, ih s.hi hrest, segLen, hlo]
        ring
  rw [hflat, hperm', htel 0 L arranged hchain]
  ring

/-- Witness for the amended C5: two pieces 0–4 and 4–10 tile an edge of
length 10 and their lengths sum to 10. -/
theorem C5_sum_conservation_witness :
    totalAttributed [[⟨0, 4⟩], [⟨4, 10⟩]] = 10 :=
  C5_sum_conservation [[⟨0, 4⟩], [⟨4, 10⟩]] 10 [⟨0, 4⟩, ⟨4, 10⟩]
    (List.Perm.refl _) (by constructor <;> simp [chainFrom])

/-! ## GEOID_BG key normalization (C10) -/

/-- Normalization (`str[-12:]` then `zfill(12)`) always yields exactly 12
characters. -/
theorem normKey_length (s : List Char) : (normKey s).length = 12 := by
  have hlast : (lastN 12 s).length = s.length - (s.length - 12) := by
    simp [lastN]
  have hle : (lastN 12 s).length ≤ 12 := by omega
  simp only [normKey, zfill, List.length_append, List.length_replicate]
  omega

/-- C10 (counterexample).  `computemetrics.py` derives a normalized key only
when the polygon layer lacks a `GEOID_BG` column; when the column exists it
is used as-is, unnormalized.  A layer whose stored `GEOID_BG` lost its
leading zero (11 characters) is merged on that 11-character key, while
normalization would have produced a 12-character key — so "each script
normalizes the key before every join" and "the key column used in every
merge always consists of 12-character strings" are both false of
`computemetrics.py`. -/
theorem C10_normalization_counterexample :
    computemetricsKey (some "17031980100".data) "17031980100".data =
        "17031980100".data ∧
    ("17031980100".data).length = 11 ∧
    (normKey "17031980100".data).length = 12 := by
  exact ⟨rfl, by decide, by decide⟩

/-- C10 (amended).  `checkinputs.py` and `aggregatetobg.py` normalize the
key unconditionally, so every key they merge on is a 12-character string
and the checker's post-normalization 12-character check can never fire: the
checker aborts exactly on duplicate normalized keys and otherwise accepts.
`computemetrics.py`, by contrast, normalizes (from `GEOID`) only when the
layer has no `GEOID_BG` column and otherwise uses the stored column
unchanged. -/
theorem C10_key_normalization :
    (∀ s : List Char, (normKey s).length = 12) ∧
    (∀ keys : List (List Char), ∀ k ∈ aggregateKeys keys, k.length = 12) ∧
    (∀ g : List Char, computemetricsKey none g = normKey g) ∧
    (∀ k g : List Char, computemetricsKey (some k) g = k) ∧
    (∀ keys : List (List Char),
      (¬ (keys.map normKey).Nodup →
        checkKeys keys = .error "GEOID_BG duplicates found") ∧
      ((keys.map normKey).Nodup → checkKeys keys = .ok (keys.map normKey))) := by
  refine ⟨normKey_length, ?_, fun _ => rfl, fun _ _ => rfl, ?_⟩
  · intro keys k hk
    simp only [aggregateKeys, List.mem_map] at hk
    obtain ⟨s, -, rfl⟩ := hk
    exact normKey_length s
  · intro keys
    constructor
    · intro hdup
      simp [checkKeys, hdup]
    · intro hnodup
      have hall : ((keys.map normKey).any fun k => k.length ≠ 12) = false := by
        simp only [List.any_eq_false]
        intro k hk
        simp only [List.mem_map] at hk
        obtain ⟨s, -, rfl⟩ := hk
        simp [normKey_length s]
      simp [checkKeys, hnodup, hall]
      intro k hk
      exact normKey_length k

/-- Witness for the amended C10: duplicate keys abort the checker; a single
key passes and comes out normalized to 12 characters. -/
theorem C10_key_normalization_witness :
    checkKeys ["17031980100".data, "17031980100".data] =
        .error "GEOID_BG duplicates found" ∧
    checkKeys ["17031980100".data] = .ok [normKey "17031980100".data] :=
  ⟨(C10_key_normalization.2.2.2.2 ["17031980100".data, "17031980100".data]).1
      (by decide),
   (C10_key_normalization.2.2.2.2 ["17031980100".data]).2 (by decide)⟩

/-! ## Mean shortest-path length (C2) -/

theorem length_filterMap_eq {α β : Type} (l : List α) (h : α → Option β) :
    (l.filterMap h).length = (l.filter (fun v => (h v).isSome)).length := by
  induction l with
  | nil => rfl
  | cons x xs ih =>
      cases hx : h x <;>
        simp [List.filterMap_cons, hx, List.filter_cons, ih]

theorem filterMap_snd_filter_ne {l : List ℕ} {u : ℕ} {f : ℕ → Option ℚ} :
    ((l.filterMap (fun v => (f v).map (fun d => (v, d)))).filter
        (fun p => p.1 ≠ u)).map Prod.snd =
      (l.filter (fun v => v ≠ u ∧ (f v).isSome)).map (fun v => (f v).getD 0) := by
  induction l with
  | nil => rfl
  | cons x xs ih =>
      cases hx : f x with
      | none =>
          simp only [List.filterMap_cons, hx, List.filter_cons]
          simp [hx]
          simpa using ih
      | some d =>
          by_cases hxu : x = u
          · subst hxu
            simp only [List.filterMap_cons, hx, List.filter_cons]
            simp [hx]
            simpa using ih
          · simp only [List.filterMap_cons, hx, List.filter_cons]
            simp [hx, hxu]
            simpa using ih

theorem length_filter_cons_of_mem {l : List ℕ} {u : ℕ} {p : ℕ → Bool}
    (hu : u ∈ l) (hnd : l.Nodup) (hpu : p u = true) :
    (l.filter p).length =
      1 + (l.filter (fun v => v ≠ u ∧ p v)).length := by
  have hperm := List.perm_cons_erase hu
  have h1 : (l.filter p).length = (((u :: l.erase u)).filter p).length :=
    ((hperm.filter p)).length_eq
  have h2 : l.erase u = l.filter (fun v => v != u) := hnd.erase_eq_filter u
  have h3 : l.filter (fun v => p v && (v != u)) =
      l.filter (fun v => v ≠ u ∧ p v) := by
    apply List.filter_congr
    intro v hv
    cases hpv : p v <;> (simp [hpv]; try rfl)
  rw [h1]
  simp only [List.filter_cons, hpu, if_true, List.length_cons]
  rw [h2, List.filter_filter, h3]
  omega

theorem spDist_self (G : Graph) (u : ℕ) (hu : u ∈ G.nodes) :
    spDist G u u = some 0 := by
  obtain ⟨m, hm⟩ := Nat.exists_eq_succ_of_ne_zero
    (List.length_pos.mpr (List.ne_nil_of_mem hu)).ne'
  simp [spDist, simplePaths, hu, hm, simplePathsAux, pathWeight, listMinQ]

/-- C2: for every node of the reduced graph, when at least one other node
is reachable the computed mean shortest-path value is exactly the sum of
the length-weighted Dijkstra distances to the other reachable nodes
divided by their count; with no other reachable node it is NaN (`none`),
and in particular never the number 0. -/
theorem C2_mean_shortest_path (G : Graph) (u : ℕ) (hu : u ∈ G.nodes)
    (hnd : G.nodes.Nodup) :
    (G.nodes.filter (fun v => v ≠ u ∧ (spDist G u v).isSome) ≠ [] →
      all_pairs_mean_entry G u = some
        (((G.nodes.filter (fun v => v ≠ u ∧ (spDist G u v).isSome)).map
            (fun v => (spDist G u v).getD 0)).sum /
          ((G.nodes.filter (fun v => v ≠ u ∧ (spDist G u v).isSome)).length : ℚ))) ∧
    (G.nodes.filter (fun v => v ≠ u ∧ (spDist G u v).isSome) = [] →
      all_pairs_mean_entry G u = none ∧ all_pairs_mean_entry G u ≠ some 0) := by
  have hpu : (spDist G u u).isSome = true := by
    simp [spDist_self G u hu]
  have hlen : (dijkstraLengths G u).length =
      1 + (G.nodes.filter (fun v => v ≠ u ∧ (spDist G u v).isSome)).length := by
    rw [dijkstraLengths, length_filterMap_eq]
    simp only [Option.isSome_map']
    exact @length_filter_cons_of_mem G.nodes u (fun v => (spDist G u v).isSome)
      hu hnd hpu
  have hsnd : ((dijkstraLengths G u).filter (fun p => p.1 ≠ u)).map Prod.snd =
      (G.nodes.filter (fun v => v ≠ u ∧ (spDist G u v).isSome)).map
        (fun v => (spDist G u v).getD 0) := filterMap_snd_filter_ne
  constructor
  · intro hne
    have hRpos : 0 <
        (G.nodes.filter (fun v => v ≠ u ∧ (spDist G u v).isSome)).length :=
      List.length_pos.mpr hne
    have h1 : 1 < (dijkstraLengths G u).length := by omega
    have hden : ((dijkstraLengths G u).length : ℚ) - 1 =
        ((G.nodes.filter (fun v => v ≠ u ∧ (spDist G u v).isSome)).length : ℚ) := by
      rw [hlen]
      push_cast
      ring
    simp only [all_pairs_mean_entry, if_pos h1, hsnd, hden]
  · intro he
    have h1 : ¬ 1 < (dijkstraLengths G u).length := by
      rw [hlen, he]
      simp
    have : all_pairs_mean_entry G u = none := by
      simp only [all_pairs_mean_entry, if_neg h1]
    exact ⟨this, by simp [this]⟩

/-- Witness for C2: in the two-node graph with one arc 0 → 1 of length 5,
node 1 is the one other reachable node from 0, so the mean is defined. -/
theorem C2_mean_shortest_path_witness :
    all_pairs_mean_entry ⟨[0, 1], [(0, 1, 5)]⟩ 0 = some
      ((((Graph.mk [0, 1] [(0, 1, 5)]).nodes.filter
            (fun v => v ≠ 0 ∧ (spDist ⟨[0, 1], [(0, 1, 5)]⟩ 0 v).isSome)).map
          (fun v => (spDist ⟨[0, 1], [(0, 1, 5)]⟩ 0 v).getD 0)).sum /
        (((Graph.mk [0, 1] [(0, 1, 5)]).nodes.filter
            (fun v => v ≠ 0 ∧ (spDist ⟨[0, 1], [(0, 1, 5)]⟩ 0 v).isSome)).length : ℚ)) :=
  (C2_mean_shortest_path ⟨[0, 1], [(0, 1, 5)]⟩ 0 (by decide) (by decide)).1
    (by decide)

set_option maxHeartbeats 6400000 in
/-- C6: in the 3-node graph A=0, B=1, C=2 with undirected edges A–B of
length 100 and B–C of length 150 (arcs in both directions), the normalized
length-weighted betweenness of B strictly exceeds that of A and of C, and
the mean shortest-path length of A is 175 and of B is 125. -/
theorem C6_three_node_scenario :
    betweenness ⟨[0, 1, 2], [(0, 1, 100), (1, 0, 100), (1, 2, 150), (2, 1, 150)]⟩ 0 <
      betweenness ⟨[0, 1, 2], [(0, 1, 100), (1, 0, 100), (1, 2, 150), (2, 1, 150)]⟩ 1 ∧
    betweenness ⟨[0, 1, 2], [(0, 1, 100), (1, 0, 100), (1, 2, 150), (2, 1, 150)]⟩ 2 <
      betweenness ⟨[0, 1, 2], [(0, 1, 100), (1, 0, 100), (1, 2, 150), (2, 1, 150)]⟩ 1 ∧
    all_pairs_mean_entry ⟨[0, 1, 2], [(0, 1, 100), (1, 0, 100), (1, 2, 150), (2, 1, 150)]⟩ 0 =
      some 175 ∧
    all_pairs_mean_entry ⟨[0, 1, 2], [(0, 1, 100), (1, 0, 100), (1, 2, 150), (2, 1, 150)]⟩ 1 =
      some 125 := by
  refine ⟨?_, ?_, ?_, ?_⟩ <;>
    norm_num [betweenness, rawBtw, depFrom, pairDep, sigmaVia, sigma,
      shortestPaths, simplePaths, simplePathsAux, spDist, pathWeight, arcW,
      arcWeights, listMinQ, all_pairs_mean_entry, dijkstraLengths,
      List.filterMap_cons, List.filterMap_nil, List.foldr_cons, List.foldr_nil]

/-! ## Betweenness normalization (C7) -/

theorem list_sum_le_filter_length {α : Type} (l : List α) (f : α → ℚ)
    (P : α → Prop) [DecidablePred P] (c : ℚ)
    (h0 : ∀ x ∈ l, 0 ≤ f x) (h1 : ∀ x ∈ l, f x ≤ c)
    (hP : ∀ x ∈ l, ¬ P x → f x = 0) :
    (l.map f).sum ≤ ((l.filter (fun x => P x)).length : ℚ) * c := by
  induction l with
  | nil => simp
  | cons x xs ih =>
      have ih' := ih (fun y hy => h0 y (List.mem_cons_of_mem x hy))
        (fun y hy => h1 y (List.mem_cons_of_mem x hy))
        (fun y hy => hP y (List.mem_cons_of_mem x hy))
      by_cases hPx : P x
      · rw [List.map_cons, List.sum_cons,
          List.filter_cons_of_pos (by simpa using hPx), List.length_cons]
        push_cast
        have hfx := h1 x (List.mem_cons_self x xs)
        nlinarith [ih']
      · have hfx : f x = 0 := hP x (List.mem_cons_self x xs) hPx
        rw [List.map_cons, List.sum_cons,
          List.filter_cons_of_neg (by simpa using hPx), hfx, zero_add]
        exact ih'

theorem sigmaVia_le_sigma (G : Graph) (s t v : ℕ) :
    sigmaVia G s t v ≤ sigma G s t :=
  List.length_filter_le _ _

theorem pairDep_nonneg (G : Graph) (s t v : ℕ) : 0 ≤ pairDep G s t v :=
  div_nonneg (Nat.cast_nonneg _) (Nat.cast_nonneg _)

theorem pairDep_le_one (G : Graph) (s t v : ℕ) : pairDep G s t v ≤ 1 := by
  rcases Nat.eq_zero_or_pos (sigma G s t) with h | h
  · have hv : sigmaVia G s t v = 0 :=
      Nat.le_zero.mp (h ▸ sigmaVia_le_sigma G s t v)
    simp [pairDep, hv]
  · rw [pairDep, div_le_one (by exact_mod_cast h)]
    exact_mod_cast sigmaVia_le_sigma G s t v

theorem pairDep_eq_zero_of_endpoint (G : Graph) (s t v : ℕ)
    (h : v = s ∨ v = t) : pairDep G s t v = 0 := by
  have : sigmaVia G s t v = 0 := by
    rw [sigmaVia, List.length_eq_zero, List.filter_eq_nil_iff]
    intro p hp
    rcases h with rfl | rfl <;> simp
  simp [pairDep, this]

theorem mem_simplePathsAux_subset (G : Graph) (fuel : ℕ) :
    ∀ (avail : List ℕ) (cur target : ℕ) (p : List ℕ),
      p ∈ simplePathsAux G fuel avail cur target → ∀ x ∈ p, x = cur ∨ x ∈ avail := by
  induction fuel with
  | zero => intro avail cur target p hp; simp [simplePathsAux] at hp
  | succ fuel ih =>
      intro avail cur target p hp x hx
      rw [simplePathsAux] at hp
      by_cases hct : cur = target
      · rw [if_pos hct] at hp
        simp at hp
        subst hp
        simp at hx
        exact Or.inl hx
      · rw [if_neg hct] at hp
        simp only [List.mem_flatMap, List.mem_map, List.mem_filter] at hp
        obtain ⟨w, ⟨hw, -⟩, q, hq, rfl⟩ := hp
        rcases List.mem_cons.mp hx with rfl | hxq
        · exact Or.inl rfl
        · rcases ih (avail.erase w) w target q hq x hxq with rfl | hxe
          · exact Or.inr hw
          · exact Or.inr (List.mem_of_mem_erase hxe)

theorem mem_simplePaths_subset_nodes (G : Graph) (s t : ℕ) (p : List ℕ)
    (hp : p ∈ simplePaths G s t) : ∀ x ∈ p, x ∈ G.nodes := by
  rw [simplePaths] at hp
  by_cases hst : s ∈ G.nodes ∧ t ∈ G.nodes
  · rw [if_pos hst] at hp
    intro x hx
    rcases mem_simplePathsAux_subset G G.nodes.length (G.nodes.erase s) s t p
        hp x hx with rfl | hxe
    · exact hst.1
    · exact List.mem_of_mem_erase hxe
  · rw [if_neg hst] at hp
    simp at hp

theorem simplePaths_mem_nodes (G : Graph) (s t : ℕ) (p : List ℕ)
    (hp : p ∈ simplePaths G s t) : s ∈ G.nodes ∧ t ∈ G.nodes := by
  rw [simplePaths] at hp
  by_cases hst : s ∈ G.nodes ∧ t ∈ G.nodes
  · exact hst
  · rw [if_neg hst] at hp
    simp at hp

theorem simplePaths_self (G : Graph) (s : ℕ) (hs : s ∈ G.nodes) :
    simplePaths G s s = [[s]] := by
  obtain ⟨m, hm⟩ := Nat.exists_eq_succ_of_ne_zero
    (List.length_pos.mpr (List.ne_nil_of_mem hs)).ne'
  rw [simplePaths, if_pos ⟨hs, hs⟩, hm, simplePathsAux, if_pos rfl]

theorem pairDep_source_self (G : Graph) (s v : ℕ) : pairDep G s s v = 0 := by
  have hvia : sigmaVia G s s v = 0 := by
    rw [sigmaVia, List.length_eq_zero, List.filter_eq_nil_iff]
    intro p hp
    have hp' : p ∈ simplePaths G s s := List.mem_of_mem_filter hp
    have hs := (simplePaths_mem_nodes G s s p hp').1
    rw [simplePaths_self G s hs] at hp'
    simp only [List.mem_singleton] at hp'
    subst hp'
    simp
  simp [pairDep, hvia]

theorem pairDep_zero_of_small (G : Graph)
    (hn : G.nodes.length ≤ 2) (s t v : ℕ) : pairDep G s t v = 0 := by
  have hvia : sigmaVia G s t v = 0 := by
    rw [sigmaVia, List.length_eq_zero, List.filter_eq_nil_iff]
    intro p hp
    have hp' : p ∈ simplePaths G s t := List.mem_of_mem_filter hp
    obtain ⟨hs, ht⟩ := simplePaths_mem_nodes G s t p hp'
    simp only [decide_eq_true_eq, not_and]
    intro hvp hvs hvt
    by_cases hst : s = t
    · subst hst
      rw [simplePaths_self G s hs] at hp'
      simp only [List.mem_singleton] at hp'
      subst hp'
      simp only [List.mem_singleton] at hvp
      exact hvs hvp
    · have hv : v ∈ G.nodes := mem_simplePaths_subset_nodes G s t p hp' v hvp
      have hsub : ({s, t, v} : Finset ℕ) ⊆ G.nodes.toFinset := by
        intro x hx
        simp only [Finset.mem_insert, Finset.mem_singleton] at hx
        rcases hx with rfl | rfl | rfl <;> simpa [List.mem_toFinset] using
          (by assumption : x ∈ G.nodes)
      have hcard : ({s, t, v} : Finset ℕ).card = 3 := by
        rw [Finset.card_insert_of_not_mem (by simp [hst, Ne.symm hvs]),
          Finset.card_insert_of_not_mem (by simp [Ne.symm hvt]),
          Finset.card_singleton]
      have h3 : 3 ≤ G.nodes.length :=
        le_trans (le_trans hcard.ge (Finset.card_le_card hsub))
          G.nodes.toFinset_card_le
      omega
  simp [pairDep, hvia]

theorem length_filter_ne (l : List ℕ) (u : ℕ) (hu : u ∈ l) (hnd : l.Nodup) :
    (l.filter (fun v => v ≠ u)).length = l.length - 1 := by
  have h2 : l.filter (fun v => decide (v ≠ u)) = l.filter (fun v => v != u) := by
    apply List.filter_congr
    intro v hv
    by_cases h : v = u <;> simp [h]
  rw [h2, ← hnd.erase_eq_filter u, List.length_erase_of_mem hu]

theorem depFrom_nonneg (G : Graph) (s v : ℕ) : 0 ≤ depFrom G s v := by
  apply List.sum_nonneg
  intro y hy
  simp only [List.mem_map] at hy
  obtain ⟨t, -, rfl⟩ := hy
  exact pairDep_nonneg G s t v

theorem depFrom_self (G : Graph) (v : ℕ) : depFrom G v v = 0 := by
  rw [depFrom]
  apply List.sum_eq_zero
  intro x hx
  simp only [List.mem_map] at hx
  obtain ⟨t, -, rfl⟩ := hx
  exact pairDep_eq_zero_of_endpoint G v t v (Or.inl rfl)

theorem depFrom_le (G : Graph) (hnd : G.nodes.Nodup) (s v : ℕ)
    (hs : s ∈ G.nodes) (hv : v ∈ G.nodes) (hsv : s ≠ v) :
    depFrom G s v ≤ ((G.nodes.length - 2 : ℕ) : ℚ) := by
  have hb := list_sum_le_filter_length G.nodes (fun t => pairDep G s t v)
    (fun t => t ≠ s ∧ t ≠ v) 1
    (fun t _ => pairDep_nonneg G s t v)
    (fun t _ => pairDep_le_one G s t v)
    (fun t _ hnot => by
      show pairDep G s t v = 0
      rcases not_and_or.mp hnot with h | h
      · push_neg at h
        rw [h]
        exact pairDep_source_self G s v
      · push_neg at h
        rw [h]
        exact pairDep_eq_zero_of_endpoint G s v v (Or.inr rfl))
  have e1 : G.nodes.filter (fun t => t ≠ s ∧ t ≠ v) =
      (G.nodes.filter (fun t => t ≠ s)).filter (fun t => t ≠ v) := by
    rw [List.filter_filter]
    apply List.filter_congr
    intro t ht
    by_cases h1 : t = s <;> by_cases h2 : t = v <;> simp [h1, h2]
  have hv' : v ∈ G.nodes.filter (fun t => t ≠ s) := by
    simp [List.mem_filter, hv, Ne.symm hsv]
  have hlen : (G.nodes.filter (fun t => t ≠ s ∧ t ≠ v)).length =
      G.nodes.length - 2 := by
    rw [e1, length_filter_ne _ v hv' (hnd.filter _),
      length_filter_ne _ s hs hnd]
    omega
  rw [depFrom]
  calc (G.nodes.map (fun t => pairDep G s t v)).sum
      ≤ ((G.nodes.filter (fun t => t ≠ s ∧ t ≠ v)).length : ℚ) * 1 := hb
    _ = ((G.nodes.length - 2 : ℕ) : ℚ) := by rw [hlen, mul_one]

theorem rawBtw_nonneg (G : Graph) (v : ℕ) : 0 ≤ rawBtw G v := by
  apply List.sum_nonneg
  intro x hx
  simp only [List.mem_map] at hx
  obtain ⟨s, -, rfl⟩ := hx
  exact depFrom_nonneg G s v

theorem rawBtw_le (G : Graph) (hnd : G.nodes.Nodup) (v : ℕ) (hv : v ∈ G.nodes) :
    rawBtw G v ≤ (((G.nodes.length - 1) * (G.nodes.length - 2) : ℕ) : ℚ) := by
  have hc : (0 : ℚ) ≤ ((G.nodes.length - 2 : ℕ) : ℚ) := Nat.cast_nonneg _
  have hb := list_sum_le_filter_length G.nodes (fun s => depFrom G s v)
    (fun s => s ≠ v) ((G.nodes.length - 2 : ℕ) : ℚ)
    (fun s _ => depFrom_nonneg G s v)
    (fun s hs => by
      show depFrom G s v ≤ ((G.nodes.length - 2 : ℕ) : ℚ)
      by_cases hsv : s = v
      · rw [hsv, depFrom_self]
        exact hc
      · exact depFrom_le G hnd s v hs hv hsv)
    (fun s _ hnot => by
      show depFrom G s v = 0
      rw [not_ne_iff] at hnot
      rw [hnot, depFrom_self])
  rw [rawBtw]
  refine le_trans hb ?_
  rw [length_filter_ne _ v hv hnd, ← Nat.cast_mul]

/-- C7: the normalized length-weighted betweenness centrality is a defined
numeric value in [0, 1] for every node of every graph, and for a graph
with a single node it is 0 rather than undefined (with `n ≤ 2` networkx
skips the rescaling, and the unnormalized value is already 0). -/
theorem C7_betweenness_in_unit_interval (G : Graph) (v : ℕ)
    (hnd : G.nodes.Nodup) (hv : v ∈ G.nodes) :
    0 ≤ betweenness G v ∧ betweenness G v ≤ 1 ∧
      (G.nodes.length = 1 → betweenness G v = 0) := by
  by_cases hn : 2 < G.nodes.length
  · rw [betweenness, if_pos hn]
    have hKpos : (0 : ℚ) <
        (((G.nodes.length - 1) * (G.nodes.length - 2) : ℕ) : ℚ) := by
      have : 0 < (G.nodes.length - 1) * (G.nodes.length - 2) :=
        Nat.mul_pos (by omega) (by omega)
      exact_mod_cast this
    refine ⟨div_nonneg (rawBtw_nonneg G v) hKpos.le, ?_, ?_⟩
    · rw [div_le_one hKpos]
      exact rawBtw_le G hnd v hv
    · intro h1
      omega
  · rw [betweenness, if_neg hn]
    have hraw : rawBtw G v = 0 := by
      rw [rawBtw]
      apply List.sum_eq_zero
      intro x hx
      simp only [List.mem_map] at hx
      obtain ⟨s, -, rfl⟩ := hx
      rw [depFrom]
      apply List.sum_eq_zero
      intro y hy
      simp only [List.mem_map] at hy
      obtain ⟨t, -, rfl⟩ := hy
      exact pairDep_zero_of_small G (by omega) s t v
    rw [hraw]
    exact ⟨le_refl 0, by norm_num, fun _ => rfl⟩

/-- Witness for C7: the single-node graph has betweenness 0 at its node,
inside [0, 1]. -/
theorem C7_betweenness_in_unit_interval_witness :
    0 ≤ betweenness ⟨[7], []⟩ 7 ∧ betweenness ⟨[7], []⟩ 7 ≤ 1 ∧
      ((Graph.mk [7] []).nodes.length = 1 → betweenness ⟨[7], []⟩ 7 = 0) :=
  C7_betweenness_in_unit_interval ⟨[7], []⟩ 7 (by decide) (by decide)

/-! ## Largest-connected-component reduction (C3) -/

theorem adjUB_symm (G : Graph) (a b : ℕ) (h : adjUB G a b = true) :
    adjUB G b a = true := by
  simp only [adjUB, List.any_eq_true, decide_eq_true_eq] at h ⊢
  obtain ⟨e, he, hc⟩ := h
  exact ⟨e, he, hc.symm⟩

theorem ReachU_symm (G : Graph) {a b : ℕ} (h : ReachU G a b) : ReachU G b a := by
  induction h with
  | refl => exact Relation.ReflTransGen.refl
  | tail _ hbc ih => exact Relation.ReflTransGen.head (adjUB_symm G _ _ hbc) ih

theorem adj_mem_nodes (G : Graph) (hE : EdgesValid G) {u w : ℕ}
    (h : adjUB G u w = true) : u ∈ G.nodes ∧ w ∈ G.nodes := by
  simp only [adjUB, List.any_eq_true, decide_eq_true_eq] at h
  obtain ⟨e, he, hc⟩ := h
  rcases hc with ⟨h1, h2⟩ | ⟨h1, h2⟩
  · exact ⟨h1 ▸ (hE e he).1, h2 ▸ (hE e he).2⟩
  · exact ⟨h2 ▸ (hE e he).2, h1 ▸ (hE e he).1⟩

theorem mem_stepU_iff (G : Graph) (S : List ℕ) (w : ℕ) :
    w ∈ stepU G S ↔
      w ∈ S ∨ (w ∈ G.nodes ∧ ∃ u ∈ S, adjUB G u w = true) := by
  simp only [stepU, List.mem_append, List.mem_filter, List.any_eq_true]

theorem reach_of_mem_iter (G : Graph) (a : ℕ) (k : ℕ) :
    ∀ w, w ∈ (stepU G)^[k] [a] → ReachU G a w := by
  induction k with
  | zero =>
      intro w hw
      simp only [Function.iterate_zero_apply, List.mem_singleton] at hw
      subst hw
      exact Relation.ReflTransGen.refl
  | succ k ih =>
      intro w hw
      rw [Function.iterate_succ_apply'] at hw
      rcases (mem_stepU_iff G _ w).mp hw with h | ⟨-, u, hu, hadj⟩
      · exact ih w h
      · exact (ih u hu).tail hadj

theorem subset_stepU (G : Graph) (S : List ℕ) : S ⊆ stepU G S :=
  fun _ hx => List.mem_append_left _ hx

theorem stepU_congr (G : Graph) {S T : List ℕ} (h : ∀ x, x ∈ S ↔ x ∈ T) :
    ∀ x, x ∈ stepU G S ↔ x ∈ stepU G T := by
  intro x
  rw [mem_stepU_iff, mem_stepU_iff]
  constructor
  · rintro (hx | ⟨hxn, u, hu, hadj⟩)
    · exact Or.inl ((h x).mp hx)
    · exact Or.inr ⟨hxn, u, (h u).mp hu, hadj⟩
  · rintro (hx | ⟨hxn, u, hu, hadj⟩)
    · exact Or.inl ((h x).mpr hx)
    · exact Or.inr ⟨hxn, u, (h u).mpr hu, hadj⟩

theorem iter_stable_of_stable (G : Graph) (a : ℕ) (k : ℕ)
    (h : ∀ x, x ∈ (stepU G)^[k] [a] ↔ x ∈ (stepU G)^[k + 1] [a]) :
    ∀ x, x ∈ (stepU G)^[k + 1] [a] ↔ x ∈ (stepU G)^[k + 2] [a] := by
  intro x
  rw [Function.iterate_succ_apply', Function.iterate_succ_apply'
    (n := k + 1)]
  exact stepU_congr G h x

theorem iter_subset_nodes (G : Graph) (a : ℕ) (ha : a ∈ G.nodes) (k : ℕ) :
    ∀ x, x ∈ (stepU G)^[k] [a] → x ∈ G.nodes := by
  induction k with
  | zero =>
      intro x hx
      simp only [Function.iterate_zero_apply, List.mem_singleton] at hx
      exact hx ▸ ha
  | succ k ih =>
      intro x hx
      rw [Function.iterate_succ_apply'] at hx
      rcases (mem_stepU_iff G _ x).mp hx with h | ⟨hxn, -⟩
      · exact ih x h
      · exact hxn

theorem iter_mono (G : Graph) (a : ℕ) (k : ℕ) :
    ∀ x, x ∈ (stepU G)^[k] [a] → x ∈ (stepU G)^[k + 1] [a] := by
  intro x hx
  rw [Function.iterate_succ_apply']
  exact subset_stepU G _ hx

theorem iter_grow_or_stable (G : Graph) (a : ℕ) :
    ∀ k, (∀ x, x ∈ (stepU G)^[k] [a] ↔ x ∈ (stepU G)^[k + 1] [a]) ∨
      k + 1 ≤ ((stepU G)^[k] [a]).toFinset.card := by
  intro k
  induction k with
  | zero => exact Or.inr (by simp)
  | succ k ih =>
      by_cases heq : ∀ x, x ∈ (stepU G)^[k] [a] ↔ x ∈ (stepU G)^[k + 1] [a]
      · exact Or.inl (iter_stable_of_stable G a k heq)
      · right
        obtain ⟨x, hx⟩ := not_forall.mp heq
        have hxin : x ∈ (stepU G)^[k + 1] [a] ∧ x ∉ (stepU G)^[k] [a] := by
          by_cases h1 : x ∈ (stepU G)^[k] [a]
          · exact absurd (iff_of_true h1 (iter_mono G a k x h1)) hx
          · have h2 : x ∈ (stepU G)^[k + 1] [a] := by
              by_contra h2
              exact hx (iff_of_false h1 h2)
            exact ⟨h2, h1⟩
        have hsub : ((stepU G)^[k] [a]).toFinset ⊆
            ((stepU G)^[k + 1] [a]).toFinset := by
          intro y hy
          rw [List.mem_toFinset] at hy ⊢
          exact iter_mono G a k y hy
        have hss : ((stepU G)^[k] [a]).toFinset ⊂
            ((stepU G)^[k + 1] [a]).toFinset := by
          refine ⟨hsub, fun hcon => ?_⟩
          have := hcon (List.mem_toFinset.mpr hxin.1)
          rw [List.mem_toFinset] at this
          exact hxin.2 this
        have hlt := Finset.card_lt_card hss
        rcases ih with hstab | hcard
        · exact absurd (hstab x) hx
        · omega

theorem iter_saturated (G : Graph) (a : ℕ) (ha : a ∈ G.nodes) :
    ∀ x, x ∈ (stepU G)^[G.nodes.length] [a] ↔
      x ∈ (stepU G)^[G.nodes.length + 1] [a] := by
  rcases iter_grow_or_stable G a G.nodes.length with h | h
  · exact h
  · exfalso
    have hsub : ((stepU G)^[G.nodes.length] [a]).toFinset ⊆
        G.nodes.toFinset := by
      intro y hy
      rw [List.mem_toFinset] at hy ⊢
      exact iter_subset_nodes G a ha _ y hy
    have h1 := Finset.card_le_card hsub
    have h2 := G.nodes.toFinset_card_le
    omega

theorem mem_reachList (G : Graph) (hE : EdgesValid G) (a : ℕ)
    (ha : a ∈ G.nodes) (b : ℕ) :
    b ∈ reachList G a ↔ ReachU G a b := by
  constructor
  · exact reach_of_mem_iter G a G.nodes.length b
  · intro h
    induction h with
    | refl =>
        have h0 : a ∈ (stepU G)^[0] [a] := by simp
        have : ∀ k, a ∈ (stepU G)^[k] [a] := by
          intro k
          induction k with
          | zero => exact h0
          | succ k ih => exact iter_mono G a k a ih
        exact this G.nodes.length
    | tail hab hadj ih =>
        rename_i y z
        have hc := (adj_mem_nodes G hE hadj).2
        have hz : z ∈ (stepU G)^[G.nodes.length + 1] [a] := by
          rw [Function.iterate_succ_apply']
          exact (mem_stepU_iff G _ _).mpr (Or.inr ⟨hc, y, ih, hadj⟩)
        exact (iter_saturated G a ha z).mpr hz

theorem mem_component_iff (G : Graph) (hE : EdgesValid G) (r : ℕ)
    (hr : r ∈ G.nodes) (x : ℕ) :
    x ∈ component_of G r ↔ x ∈ G.nodes ∧ ReachU G r x := by
  rw [component_of, List.mem_filter, decide_eq_true_eq,
    mem_reachList G hE r hr x]

theorem component_of_eq (G : Graph) (hE : EdgesValid G) {r q : ℕ}
    (hr : r ∈ G.nodes) (hq : q ∈ G.nodes) (h : ReachU G r q) :
    component_of G r = component_of G q := by
  unfold component_of
  apply List.filter_congr
  intro b hb
  rw [decide_eq_decide, mem_reachList G hE r hr b, mem_reachList G hE q hq b]
  exact ⟨fun hrb => (ReachU_symm G h).trans hrb, fun hqb => h.trans hqb⟩

theorem adjUB_subgraph (G : Graph) (S : List ℕ) (u w : ℕ)
    (h : adjUB G u w = true) (hu : u ∈ S) (hw : w ∈ S) :
    adjUB (subgraphOn G S) u w = true := by
  simp only [adjUB, List.any_eq_true, decide_eq_true_eq] at h ⊢
  obtain ⟨e, he, hc⟩ := h
  refine ⟨e, ?_, hc⟩
  simp only [subgraphOn, List.mem_filter, decide_eq_true_eq]
  refine ⟨he, ?_⟩
  rcases hc with ⟨h1, h2⟩ | ⟨h1, h2⟩
  · exact ⟨h1 ▸ hu, h2 ▸ hw⟩
  · exact ⟨h1 ▸ hw, h2 ▸ hu⟩

theorem reach_subgraph (G : Graph) (hE : EdgesValid G) (r : ℕ)
    (hr : r ∈ G.nodes) {a b : ℕ} (ha : a ∈ component_of G r)
    (hab : ReachU G a b) :
    ReachU (subgraphOn G (component_of G r)) a b := by
  induction hab with
  | refl => exact Relation.ReflTransGen.refl
  | tail hab hadj ih =>
      have hra : ReachU G r a := ((mem_component_iff G hE r hr a).mp ha).2
      have hmid := adj_mem_nodes G hE hadj
      have hb' : _ ∈ component_of G r :=
        (mem_component_iff G hE r hr _).mpr ⟨hmid.1, hra.trans hab⟩
      have hc' : _ ∈ component_of G r :=
        (mem_component_iff G hE r hr _).mpr ⟨hmid.2, (hra.trans hab).tail hadj⟩
      exact ih.tail (adjUB_subgraph G _ _ _ hadj hb' hc')

theorem componentsAux_roots (G : Graph) :
    ∀ (l seen : List ℕ) (c : List ℕ), c ∈ componentsAux G l seen →
      ∃ v ∈ l, c = component_of G v := by
  intro l
  induction l with
  | nil =>
      intro seen c hc
      simp [componentsAux] at hc
  | cons v rest ih =>
      intro seen c hc
      rw [componentsAux] at hc
      by_cases hv : v ∈ seen
      · rw [if_pos hv] at hc
        obtain ⟨w, hw, he⟩ := ih _ c hc
        exact ⟨w, List.mem_cons_of_mem _ hw, he⟩
      · rw [if_neg hv] at hc
        rcases List.mem_cons.mp hc with rfl | hc'
        · exact ⟨v, List.mem_cons_self _ _, rfl⟩
        · obtain ⟨w, hw, he⟩ := ih _ c hc'
          exact ⟨w, List.mem_cons_of_mem _ hw, he⟩

theorem componentsAux_covers (G : Graph) (hE : EdgesValid G) :
    ∀ (l seen : List ℕ), (∀ x ∈ l, x ∈ G.nodes) →
      ∀ r ∈ l, r ∈ seen ∨
        ∃ c ∈ componentsAux G l seen, c = component_of G r := by
  intro l
  induction l with
  | nil =>
      intro seen _ r hr
      cases hr
  | cons v rest ih =>
      intro seen hsub r hr
      have hsubr : ∀ x ∈ rest, x ∈ G.nodes :=
        fun x hx => hsub x (List.mem_cons_of_mem _ hx)
      rw [componentsAux]
      by_cases hv : v ∈ seen
      · rw [if_pos hv]
        rcases List.mem_cons.mp hr with rfl | hr'
        · exact Or.inl hv
        · exact ih seen hsubr r hr'
      · rw [if_neg hv]
        rcases List.mem_cons.mp hr with rfl | hr'
        · exact Or.inr ⟨component_of G r, List.mem_cons_self _ _, rfl⟩
        · rcases ih (seen ++ component_of G v) hsubr r hr' with h | ⟨c, hc, he⟩
          · rcases List.mem_append.mp h with h1 | h2
            · exact Or.inl h1
            · right
              refine ⟨component_of G v, List.mem_cons_self _ _, ?_⟩
              have hrv : ReachU G v r :=
                ((mem_component_iff G hE v
                  (hsub v (List.mem_cons_self _ _)) r).mp h2).2
              exact component_of_eq G hE (hsub v (List.mem_cons_self _ _))
                (hsub r hr) hrv
          · exact Or.inr ⟨c, List.mem_cons_of_mem _ hc, he⟩

theorem foldl_maxByLen_mem (rest : List (List ℕ)) :
    ∀ init : List ℕ,
      rest.foldl (fun best x => if best.length < x.length then x else best) init ∈
        init :: rest := by
  induction rest with
  | nil => intro init; simp
  | cons x xs ih =>
      intro init
      rw [List.foldl_cons]
      by_cases h : init.length < x.length
      · rw [if_pos h]
        rcases List.mem_cons.mp (ih x) with he | hm
        · rw [he]
          exact List.mem_cons_of_mem _ (List.mem_cons_self _ _)
        · exact List.mem_cons_of_mem _ (List.mem_cons_of_mem _ hm)
      · rw [if_neg h]
        rcases List.mem_cons.mp (ih init) with he | hm
        · rw [he]
          exact List.mem_cons_self _ _
        · exact List.mem_cons_of_mem _ (List.mem_cons_of_mem _ hm)

theorem foldl_maxByLen_le (rest : List (List ℕ)) :
    ∀ init : List ℕ,
      init.length ≤
        (rest.foldl (fun best x => if best.length < x.length then x else best)
          init).length ∧
      ∀ c ∈ rest, c.length ≤
        (rest.foldl (fun best x => if best.length < x.length then x else best)
          init).length := by
  induction rest with
  | nil => intro init; simp
  | cons x xs ih =>
      intro init
      rw [List.foldl_cons]
      by_cases h : init.length < x.length
      · rw [if_pos h]
        obtain ⟨h1, h2⟩ := ih x
        refine ⟨le_trans (le_of_lt h) h1, ?_⟩
        intro c hc
        rcases List.mem_cons.mp hc with rfl | hc'
        · exact h1
        · exact h2 c hc'
      · rw [if_neg h]
        obtain ⟨h1, h2⟩ := ih init
        refine ⟨h1, ?_⟩
        intro c hc
        rcases List.mem_cons.mp hc with rfl | hc'
        · exact le_trans (le_of_not_lt h) h1
        · exact h2 c hc'

theorem maxByLen_mem (l : List (List ℕ)) (h : l ≠ []) : maxByLen l ∈ l := by
  cases l with
  | nil => exact absurd rfl h
  | cons c rest => exact foldl_maxByLen_mem rest c

theorem maxByLen_maximal (l : List (List ℕ)) (c : List ℕ) (hc : c ∈ l) :
    c.length ≤ (maxByLen l).length := by
  cases l with
  | nil => cases hc
  | cons d rest =>
      rcases List.mem_cons.mp hc with rfl | hc'
      · exact (foldl_maxByLen_le rest c).1
      · exact (foldl_maxByLen_le rest d).2 c hc'

theorem componentsList_ne_nil (G : Graph) (h : G.nodes ≠ []) :
    componentsList G ≠ [] := by
  rw [componentsList]
  cases hn : G.nodes with
  | nil => exact absurd hn h
  | cons v rest =>
      rw [componentsAux, if_neg (List.not_mem_nil v)]
      simp

theorem connected_of_is_connectedB (G : Graph) (hE : EdgesValid G)
    (h : is_connectedB G = true) :
    ∀ a ∈ G.nodes, ∀ b ∈ G.nodes, ReachU G a b := by
  intro a ha b hb
  rw [is_connectedB] at h
  cases hn : G.nodes with
  | nil => rw [hn] at ha; cases ha
  | cons v rest =>
      rw [hn] at h
      simp only [List.all_eq_true, decide_eq_true_eq] at h
      have hv : v ∈ G.nodes := by rw [hn]; exact List.mem_cons_self _ _
      have hva : ReachU G v a :=
        (mem_reachList G hE v hv a).mp (h a (hn ▸ ha))
      have hvb : ReachU G v b :=
        (mem_reachList G hE v hv b).mp (h b (hn ▸ hb))
      exact (ReachU_symm G hva).trans hvb

theorem subgraphOn_component_nodes (G : Graph) (r : ℕ) :
    (subgraphOn G (component_of G r)).nodes = component_of G r := by
  show G.nodes.filter _ = G.nodes.filter _
  apply List.filter_congr
  intro v hv
  rw [decide_eq_decide]
  rw [component_of, List.mem_filter]
  simp [hv]

theorem subgraphOn_nodes_eq_self (G : Graph) (hE : EdgesValid G) :
    subgraphOn G G.nodes = G := by
  have hnn : G.nodes.filter (fun v => v ∈ G.nodes) = G.nodes :=
    List.filter_eq_self.mpr (fun a ha => by simpa using ha)
  have hee : G.edges.filter (fun e => e.1 ∈ G.nodes ∧ e.2.1 ∈ G.nodes) =
      G.edges :=
    List.filter_eq_self.mpr (fun e he => by simpa using hE e he)
  rw [subgraphOn, hnn, hee]

/-- C3: for every valid loaded graph with at least one node,
`largest_component` returns a non-empty graph that is connected when
treated as undirected, and that graph is exactly the input restricted to a
connected component of maximal size; an input whose undirected view is
already connected is returned unchanged. -/
theorem C3_largest_component_reduction (G : Graph) (hE : EdgesValid G)
    (hne : G.nodes ≠ []) :
    (largest_component G).nodes ≠ [] ∧
    (∀ a ∈ (largest_component G).nodes, ∀ b ∈ (largest_component G).nodes,
      ReachU (largest_component G) a b) ∧
    (∃ r ∈ G.nodes, largest_component G = subgraphOn G (component_of G r) ∧
      ∀ q ∈ G.nodes,
        (component_of G q).length ≤ (component_of G r).length) ∧
    (is_connectedB G = true → largest_component G = G) := by
  by_cases hconn : is_connectedB G = true
  · have hL : largest_component G = G := by
      rw [largest_component, if_pos hconn]
    have hconnprop := connected_of_is_connectedB G hE hconn
    obtain ⟨v, rest, hn⟩ : ∃ v rest, G.nodes = v :: rest := by
      cases h : G.nodes with
      | nil => exact absurd h hne
      | cons v rest => exact ⟨v, rest, rfl⟩
    have hv : v ∈ G.nodes := by
      rw [hn]
      exact List.mem_cons_self _ _
    have hcomp_all : component_of G v = G.nodes := by
      rw [component_of]
      apply List.filter_eq_self.mpr
      intro b hb
      simpa using (mem_reachList G hE v hv b).mpr (hconnprop v hv b hb)
    refine ⟨by rw [hL]; exact hne, ?_, ?_, fun _ => hL⟩
    · rw [hL]
      exact hconnprop
    · refine ⟨v, hv, ?_, ?_⟩
      · rw [hL, hcomp_all, subgraphOn_nodes_eq_self G hE]
      · intro q hq
        rw [hcomp_all, component_of]
        exact List.length_filter_le _ _
  · have hL : largest_component G = subgraphOn G (maxByLen (componentsList G)) := by
      rw [largest_component, if_neg hconn]
    have hCmem : maxByLen (componentsList G) ∈ componentsAux G G.nodes [] :=
      maxByLen_mem _ (componentsList_ne_nil G hne)
    obtain ⟨r, hr, hCr⟩ := componentsAux_roots G G.nodes [] _ hCmem
    have hLr : largest_component G = subgraphOn G (component_of G r) := by
      rw [hL, hCr]
    have hnodes : (largest_component G).nodes = component_of G r := by
      rw [hLr]
      exact subgraphOn_component_nodes G r
    have hrin : r ∈ component_of G r :=
      (mem_component_iff G hE r hr r).mpr ⟨hr, Relation.ReflTransGen.refl⟩
    refine ⟨?_, ?_, ⟨r, hr, hLr, ?_⟩, fun hcon => absurd hcon hconn⟩
    · rw [hnodes]
      exact List.ne_nil_of_mem hrin
    · intro a ha b hb
      rw [hnodes] at ha hb
      have hra := ((mem_component_iff G hE r hr a).mp ha).2
      have hrb := ((mem_component_iff G hE r hr b).mp hb).2
      have hab : ReachU G a b := (ReachU_symm G hra).trans hrb
      rw [hLr]
      exact reach_subgraph G hE r hr ha hab
    · intro q hq
      rcases componentsAux_covers G hE G.nodes [] (fun x hx => hx) q hq with
        h | ⟨c, hc, hcq⟩
      · exact absurd h (List.not_mem_nil q)
      · have hle := maxByLen_maximal (componentsAux G G.nodes []) c hc
        rw [hcq] at hle
        have hCeq : maxByLen (componentsAux G G.nodes []) = component_of G r :=
          hCr
        rw [hCeq] at hle
        exact hle

/-- Witness for C3: the graph on nodes 0, 1, 2 with the single undirected
edge 0–1 reduces to the component of 0 and 1. -/
theorem C3_largest_component_reduction_witness :
    (largest_component ⟨[0, 1, 2], [(0, 1, 7)]⟩).nodes ≠ [] ∧
    (∀ a ∈ (largest_component ⟨[0, 1, 2], [(0, 1, 7)]⟩).nodes,
      ∀ b ∈ (largest_component ⟨[0, 1, 2], [(0, 1, 7)]⟩).nodes,
        ReachU (largest_component ⟨[0, 1, 2], [(0, 1, 7)]⟩) a b) ∧
    (∃ r ∈ (Graph.mk [0, 1, 2] [(0, 1, 7)]).nodes,
      largest_component ⟨[0, 1, 2], [(0, 1, 7)]⟩ =
        subgraphOn ⟨[0, 1, 2], [(0, 1, 7)]⟩
          (component_of ⟨[0, 1, 2], [(0, 1, 7)]⟩ r) ∧
      ∀ q ∈ (Graph.mk [0, 1, 2] [(0, 1, 7)]).nodes,
        (component_of ⟨[0, 1, 2], [(0, 1, 7)]⟩ q).length ≤
          (component_of ⟨[0, 1, 2], [(0, 1, 7)]⟩ r).length) ∧
    (is_connectedB ⟨[0, 1, 2], [(0, 1, 7)]⟩ = true →
      largest_component ⟨[0, 1, 2], [(0, 1, 7)]⟩ = ⟨[0, 1, 2], [(0, 1, 7)]⟩) :=
  C3_largest_component_reduction ⟨[0, 1, 2], [(0, 1, 7)]⟩ (by decide) (by decide)
